import Mathlib

/-!
Shallow embedding of the arithmetic core of `math_utils/number_theory.py` and
`math_utils/statistics.py`.

Conventions used throughout:
* Python functions that raise (`TypeError`/`ValueError`) are modelled as
  `Option`-valued functions returning `none` where the Python code raises.
* Python `int` is modelled as `ℤ` (or `ℕ` when the function validates its
  input to be a natural number before any arithmetic happens).
* Python floats appearing in the statistics code are modelled as exact
  rationals `ℚ`.
* `range(start, stop, step)` (with positive step) is modelled by `pyRange`.
* Python `//` and `%` on integers are floor division and floor modulus;
  they are modelled by `Int.fdiv` / `Int.fmod` (wrapped as `pyDiv` / `pyMod`).
-/

/-- Python `range(start, stop, step)` for a positive `step`:
the list `start, start+step, ...` of all such values `< stop`. -/
def pyRange (start stop step : ℕ) : List ℕ :=
  List.range' start ((stop - start + step - 1) / step) step

/-- Python `a // b` (floor division), as used in `number_theory.py`. -/
def pyDiv (a b : ℤ) : ℤ := Int.fdiv a b

/-- Python `a % b` (floor modulus, the result has the sign of `b`),
as used in `number_theory.py`. -/
def pyMod (a b : ℤ) : ℤ := Int.fmod a b

/-- `is_prime(n)` from `number_theory.py`.  `none` models the `ValueError`
raised for `n < 2`.  For odd `n > 2` the code trial-divides by the odd
numbers `range(3, int(math.sqrt(n)) + 1, 2)`, returning `False` on the
first divisor found (modelled by `List.all`). -/
def is_prime (n : ℕ) : Option Bool :=
  if n < 2 then none
  else if n = 2 then some true
  else if n % 2 = 0 then some false
  else some ((pyRange 3 (Nat.sqrt n + 1) 2).all fun i => n % i != 0)

/-- The initial sieve array of `generate_primes`: entries `0` and `1` are
`False`, the rest `True` (the array is only ever read at indices `≤ limit`). -/
def sieveInit : ℕ → Bool := fun j => decide (2 ≤ j)

/-- The inner loop `for j in range(i * i, limit + 1, i): sieve[j] = False`
of `generate_primes`. -/
def sieveMark (limit : ℕ) (s : ℕ → Bool) (i : ℕ) : ℕ → Bool :=
  (pyRange (i * i) (limit + 1) i).foldl (fun t j => Function.update t j false) s

/-- One step of the outer loop of `generate_primes`: the multiples of `i`
are struck only when `sieve[i]` is still set. -/
def sieveStep (limit : ℕ) (s : ℕ → Bool) (i : ℕ) : ℕ → Bool :=
  if s i then sieveMark limit s i else s

/-- The sieve array after the outer loop
`for i in range(2, int(math.sqrt(limit)) + 1)` of `generate_primes`. -/
def sieveLoop (limit : ℕ) : ℕ → Bool :=
  (pyRange 2 (Nat.sqrt limit + 1) 1).foldl (sieveStep limit) sieveInit

/-- `generate_primes(limit)` from `number_theory.py`.  `none` models the
`ValueError` raised for `limit < 2`; otherwise the result is
`[i for i in range(2, limit + 1) if sieve[i]]`. -/
def generate_primes (limit : ℕ) : Option (List ℕ) :=
  if limit < 2 then none
  else some ((pyRange 2 (limit + 1) 1).filter (sieveLoop limit))

/-- The nested `while` loops of `prime_factors`: while `d * d <= n`, divide
out `d` as often as possible (appending it once per division), then move to
`d + 1`; once `d * d > n`, append the remaining `n` when it exceeds `1`.
The conjunct `2 ≤ d` makes the recursion well-founded; the source
establishes it by starting at `d = 2` and only ever incrementing `d`. -/
def prime_factors_loop (n d : ℕ) : List ℕ :=
  if h : 2 ≤ d ∧ d * d ≤ n then
    if n % d = 0 then d :: prime_factors_loop (n / d) d
    else prime_factors_loop n (d + 1)
  else if 1 < n then [n] else []
termination_by n + (n - d)
decreasing_by
  all_goals
    rcases h with ⟨h1, h2⟩
    have hn : 0 < n := by nlinarith
    have hdn : d < n := by nlinarith
    have hdiv : n / d < n := Nat.div_lt_self hn (by omega)
    omega

/-- `prime_factors(n)` from `number_theory.py`.  `none` models the
`ValueError` raised for `n < 1`. -/
def prime_factors (n : ℕ) : Option (List ℕ) :=
  if n < 1 then none
  else if n = 1 then some []
  else some (prime_factors_loop n 2)

/-- The fold `result = math.gcd(result, abs(num))` of `gcd_multiple`, with
the early `break` once the running result reaches `1`. -/
def gcd_fold (result : ℕ) : List ℤ → ℕ
  | [] => result
  | num :: rest =>
    let r := Nat.gcd result num.natAbs
    if r = 1 then r else gcd_fold r rest

/-- `gcd_multiple(*numbers)` from `number_theory.py` (variadic arguments
modelled as a list).  `none` models the `ValueError` raised for an empty
argument list. -/
def gcd_multiple : List ℤ → Option ℕ
  | [] => none
  | x :: rest => some (gcd_fold x.natAbs rest)

/-- The fold `result = abs(result * num) // math.gcd(result, abs(num))` of
`lcm_multiple` (the accumulator is non-negative, so
`abs(result * num) = result * abs(num)`). -/
def lcm_fold (result : ℕ) : List ℤ → ℕ
  | [] => result
  | num :: rest => lcm_fold (result * num.natAbs / Nat.gcd result num.natAbs) rest

/-- `lcm_multiple(*numbers)` from `number_theory.py`.  `none` models the
`ValueError` raised for an empty argument list or for any zero argument. -/
def lcm_multiple : List ℤ → Option ℕ
  | [] => none
  | x :: rest =>
    if (x :: rest).any (fun num => num == 0) then none
    else some (lcm_fold x.natAbs rest)

/-- `Int.fdiv` negates cleanly in both arguments (floor division of the
negated pair is floor division of the pair). -/
theorem fdiv_neg_neg : ∀ a b : ℤ, Int.fdiv (-a) (-b) = Int.fdiv a b
  | .ofNat 0, .ofNat 0 => rfl
  | .ofNat 0, .ofNat (_+1) => rfl
  | .ofNat 0, .negSucc _ => rfl
  | .ofNat (_+1), .ofNat 0 => by
    show Int.fdiv _ (-(0:ℤ)) = Int.fdiv _ (0:ℤ)
    rw [neg_zero, Int.fdiv_zero, Int.fdiv_zero]
  | .ofNat (_+1), .ofNat (_+1) => rfl
  | .ofNat (_+1), .negSucc _ => rfl
  | .negSucc _, .ofNat 0 => by
    show Int.fdiv _ (-(0:ℤ)) = Int.fdiv _ (0:ℤ)
    rw [neg_zero, Int.fdiv_zero, Int.fdiv_zero]
  | .negSucc _, .ofNat (_+1) => rfl
  | .negSucc _, .negSucc _ => rfl

/-- `Int.fmod` is odd under negating both arguments. -/
theorem fmod_neg_neg (a b : ℤ) : Int.fmod (-a) (-b) = -Int.fmod a b := by
  rw [Int.fmod_def, Int.fmod_def, fdiv_neg_neg]
  ring

/-- The absolute value of the floor modulus is strictly below the absolute
value of a nonzero divisor (for either sign of the divisor). -/
theorem natAbs_pyMod_lt (a : ℤ) {b : ℤ} (hb : b ≠ 0) :
    (pyMod a b).natAbs < b.natAbs := by
  rw [pyMod]
  rcases lt_or_gt_of_ne hb with hneg | hpos
  · have h1 : Int.fmod a b = -Int.fmod (-a) (-b) := by
      rw [fmod_neg_neg, neg_neg]
    have hpos' : 0 < -b := by omega
    have h2 : 0 ≤ Int.fmod (-a) (-b) := Int.fmod_nonneg' _ hpos'
    have h3 : Int.fmod (-a) (-b) < -b := Int.fmod_lt_of_pos _ hpos'
    rw [h1, Int.natAbs_neg]
    have h4 := Int.natAbs_lt_natAbs_of_nonneg_of_lt h2 h3
    simpa using h4
  · exact Int.natAbs_lt_natAbs_of_nonneg_of_lt (Int.fmod_nonneg' _ hpos)
      (Int.fmod_lt_of_pos _ hpos)

/-- `extended_gcd(a, b)` from `number_theory.py`: base case `b == 0`
returns `(a, 1, 0)`; otherwise recurse on `(b, a % b)` and back-substitute
`x = y1`, `y = x1 - (a // b) * y1`. -/
def extended_gcd (a b : ℤ) : ℤ × ℤ × ℤ :=
  if b = 0 then (a, 1, 0)
  else
    let r := extended_gcd b (pyMod a b)
    (r.1, r.2.2, r.2.1 - pyDiv a b * r.2.2)
termination_by b.natAbs
decreasing_by exact natAbs_pyMod_lt a (by assumption)

/-- The defining identity of floor division and floor modulus:
`b * (a // b) + (a % b) = a`. -/
theorem pyDiv_mul_add_pyMod (a b : ℤ) : b * pyDiv a b + pyMod a b = a :=
  Int.fdiv_add_fmod a b

/-- Replacing `a` by `a % b` does not change the gcd with `b`. -/
theorem gcd_pyMod (a b : ℤ) : Int.gcd b (pyMod a b) = Int.gcd a b := by
  rw [pyMod, Int.fmod_def, ← pyDiv]
  apply Nat.dvd_antisymm
  · rw [← Int.natCast_dvd_natCast]
    apply Int.dvd_gcd
    · have h1 : (↑(Int.gcd b (a - b * pyDiv a b)) : ℤ) ∣ b := Int.gcd_dvd_left
      have h2 : (↑(Int.gcd b (a - b * pyDiv a b)) : ℤ) ∣ a - b * pyDiv a b :=
        Int.gcd_dvd_right
      have h3 := dvd_add h2 (h1.mul_right (pyDiv a b))
      simpa using h3
    · exact Int.gcd_dvd_left
  · rw [← Int.natCast_dvd_natCast]
    apply Int.dvd_gcd
    · exact Int.gcd_dvd_right
    · exact dvd_sub Int.gcd_dvd_left (Dvd.dvd.mul_right Int.gcd_dvd_right _)

/-- Bézout identity for `extended_gcd`: the returned coefficients always
satisfy `a*x + b*y = g`. -/
theorem extended_gcd_bezout (a b : ℤ) :
    a * (extended_gcd a b).2.1 + b * (extended_gcd a b).2.2 = (extended_gcd a b).1 := by
  induction a, b using extended_gcd.induct with
  | case1 a => simp [extended_gcd]
  | case2 a b hb ih =>
    rw [extended_gcd, if_neg hb]
    show a * (extended_gcd b (pyMod a b)).2.2 +
        b * ((extended_gcd b (pyMod a b)).2.1 -
          pyDiv a b * (extended_gcd b (pyMod a b)).2.2) =
        (extended_gcd b (pyMod a b)).1
    have key := pyDiv_mul_add_pyMod a b
    linear_combination ih - (extended_gcd b (pyMod a b)).2.2 * key

/-- The first component of `extended_gcd` is the gcd up to sign. -/
theorem extended_gcd_natAbs (a b : ℤ) :
    (extended_gcd a b).1.natAbs = Int.gcd a b := by
  induction a, b using extended_gcd.induct with
  | case1 a => simp [extended_gcd, Int.gcd_zero_right]
  | case2 a b hb ih =>
    rw [extended_gcd, if_neg hb]
    show (extended_gcd b (pyMod a b)).1.natAbs = _
    rw [ih, gcd_pyMod]

/-- On nonnegative inputs the first component of `extended_gcd` is
nonnegative. -/
theorem extended_gcd_fst_nonneg (a b : ℤ) :
    0 ≤ a → 0 ≤ b → 0 ≤ (extended_gcd a b).1 := by
  induction a, b using extended_gcd.induct with
  | case1 a => intro ha _; simpa [extended_gcd] using ha
  | case2 a b hb ih =>
    intro ha hb0
    rw [extended_gcd, if_neg hb]
    show 0 ≤ (extended_gcd b (pyMod a b)).1
    refine ih hb0 ?_
    show 0 ≤ Int.fmod a b
    exact Int.fmod_nonneg' a (lt_of_le_of_ne hb0 (Ne.symm hb))

/-- Claim C1 (amended): for all integers a, b, `extended_gcd(a, b)` returns
(g, x, y) with `a*x + b*y == g` and `abs(g) == gcd(abs(a), abs(b))`;
`g == gcd(abs(a), abs(b))` itself holds whenever both arguments are
nonnegative (for a negative argument the returned g can be negative, so the
claim as stated fails there). -/
theorem extended_gcd_spec (a b : ℤ) :
    a * (extended_gcd a b).2.1 + b * (extended_gcd a b).2.2 = (extended_gcd a b).1 ∧
    (extended_gcd a b).1.natAbs = Nat.gcd a.natAbs b.natAbs ∧
    (0 ≤ a → 0 ≤ b →
      (extended_gcd a b).1 = (Nat.gcd a.natAbs b.natAbs : ℤ)) := by
  refine ⟨extended_gcd_bezout a b, extended_gcd_natAbs a b, fun ha hb => ?_⟩
  have h1 := extended_gcd_fst_nonneg a b ha hb
  have h2 := extended_gcd_natAbs a b
  rw [← Int.natAbs_of_nonneg h1, h2]
  rfl

/-- Witness for C1 at (30, 18). -/
theorem extended_gcd_spec_witness :
    (0:ℤ) ≤ 30 ∧ (0:ℤ) ≤ 18 ∧
      (extended_gcd 30 18).1 = (Nat.gcd (Int.natAbs 30) (Int.natAbs 18) : ℤ) :=
  ⟨by norm_num, by norm_num,
    (extended_gcd_spec 30 18).2.2 (by norm_num) (by norm_num)⟩

/-- Counterexample to C1 as stated: at (a, b) = (-4, 0) the code returns
g = -4, while gcd(abs(-4), abs(0)) = 4. -/
theorem extended_gcd_claim_counterexample :
    ¬ ((extended_gcd (-4) 0).1 = (Nat.gcd (Int.natAbs (-4)) (Int.natAbs 0) : ℤ)) := by
  rw [extended_gcd]
  norm_num

/-- Claim C10: for nonzero `b`, the recursive call of `extended_gcd` is on
`(b, a mod b)` and under floor-division semantics the absolute value of the
second argument strictly decreases, so the recursion terminates (this holds
for negative inputs as well). -/
theorem extended_gcd_terminates (a b : ℤ) (hb : b ≠ 0) :
    (pyMod a b).natAbs < b.natAbs ∧
    extended_gcd a b =
      ((extended_gcd b (pyMod a b)).1,
       (extended_gcd b (pyMod a b)).2.2,
       (extended_gcd b (pyMod a b)).2.1 - pyDiv a b * (extended_gcd b (pyMod a b)).2.2) :=
  ⟨natAbs_pyMod_lt a hb, by rw [extended_gcd, if_neg hb]⟩

/-- Witness for C10 at (-7, -3): |(-7) mod (-3)| = 2 < 3. -/
theorem extended_gcd_terminates_witness :
    (-3:ℤ) ≠ 0 ∧
    ((pyMod (-7) (-3)).natAbs < Int.natAbs (-3) ∧
      extended_gcd (-7) (-3) =
        ((extended_gcd (-3) (pyMod (-7) (-3))).1,
         (extended_gcd (-3) (pyMod (-7) (-3))).2.2,
         (extended_gcd (-3) (pyMod (-7) (-3))).2.1 -
           pyDiv (-7) (-3) * (extended_gcd (-3) (pyMod (-7) (-3))).2.2)) :=
  ⟨by norm_num, extended_gcd_terminates (-7) (-3) (by norm_num)⟩

/-- The gcd fold over a single further argument is a plain pairwise gcd
(with or without the early exit). -/
theorem gcd_fold_pair (m : ℕ) (b : ℤ) :
    gcd_fold m [b] = Nat.gcd m b.natAbs := by
  rw [gcd_fold]
  split
  · omega
  · rw [gcd_fold]

/-- Claim C6: for nonzero integers a, b (so that both operations are
defined), `gcd_multiple(a, b) * lcm_multiple(a, b) == abs(a * b)`. -/
theorem gcd_multiple_mul_lcm_multiple (a b : ℤ) (ha : a ≠ 0) (hb : b ≠ 0) :
    ∃ g l, gcd_multiple [a, b] = some g ∧ lcm_multiple [a, b] = some l ∧
      g * l = (a * b).natAbs := by
  refine ⟨Nat.gcd a.natAbs b.natAbs,
    a.natAbs * b.natAbs / Nat.gcd a.natAbs b.natAbs, ?_, ?_, ?_⟩
  · show some (gcd_fold a.natAbs [b]) = _
    rw [gcd_fold_pair]
  · rw [lcm_multiple]
    have hany : ([a, b].any (fun num => num == 0)) = false := by
      simp [ha, hb]
    rw [hany]
    simp only [Bool.false_eq_true, if_false, lcm_fold]
  · have hdvd : Nat.gcd a.natAbs b.natAbs ∣ a.natAbs * b.natAbs :=
      (Nat.gcd_dvd_left _ _).mul_right _
    rw [Nat.mul_div_cancel' hdvd, Int.natAbs_mul]

/-- Witness for C6 at (4, 6): gcd = 2, lcm = 12, product 24 = |4 * 6|. -/
theorem gcd_multiple_mul_lcm_multiple_witness :
    (4:ℤ) ≠ 0 ∧ (6:ℤ) ≠ 0 ∧
    ∃ g l, gcd_multiple [(4:ℤ), 6] = some g ∧ lcm_multiple [(4:ℤ), 6] = some l ∧
      g * l = ((4:ℤ) * 6).natAbs :=
  ⟨by norm_num, by norm_num,
    gcd_multiple_mul_lcm_multiple 4 6 (by norm_num) (by norm_num)⟩

/-- Counterexample to C8 as stated: `gcd_multiple(0, 0)` does not raise, it
returns `0` (the fold computes `math.gcd(0, 0) == 0` without any domain
check). -/
theorem gcd_multiple_zero_zero_counterexample :
    gcd_multiple [(0:ℤ), 0] = some 0 := by
  show some (gcd_fold (Int.natAbs 0) [0]) = some 0
  rw [gcd_fold_pair]
  simp

/-- Claim C8 (amended): `gcd_multiple(0, 0)` raises no error and returns 0;
the only `ValueError` in `gcd_multiple` is for an empty argument list. -/
theorem gcd_multiple_zero_zero_spec :
    gcd_multiple [(0:ℤ), 0] = some 0 ∧ gcd_multiple ([] : List ℤ) = none := by
  constructor
  · show some (gcd_fold (Int.natAbs 0) [0]) = some 0
    rw [gcd_fold_pair]
    simp
  · rfl

/-- Invariant of the `prime_factors` loop: starting from any `d ≥ 2` with
`n ≥ 1` having no prime factor below `d`, the loop returns a sorted list of
primes (each at least `d`) whose product is `n`. -/
theorem prime_factors_loop_spec :
    ∀ n d : ℕ, 2 ≤ d → 1 ≤ n → (∀ p : ℕ, p.Prime → p ∣ n → d ≤ p) →
    (prime_factors_loop n d).prod = n ∧
    (∀ p ∈ prime_factors_loop n d, Nat.Prime p) ∧
    List.Sorted (· ≤ ·) (prime_factors_loop n d) ∧
    (∀ x ∈ prime_factors_loop n d, d ≤ x) := by
  intro n d
  induction n, d using prime_factors_loop.induct with
  | case1 n d h hmod ih =>
    intro hd hn hmin
    rw [prime_factors_loop, dif_pos h, if_pos hmod]
    have hdvd : d ∣ n := Nat.dvd_of_mod_eq_zero hmod
    have hdprime : Nat.Prime d := by
      have hq := Nat.minFac_prime (show d ≠ 1 by omega)
      have hqn : d.minFac ∣ n := (Nat.minFac_dvd d).trans hdvd
      have h1 := hmin _ hq hqn
      have h2 : d.minFac ≤ d := Nat.minFac_le (by omega)
      have h3 : d.minFac = d := le_antisymm h2 h1
      rwa [← h3]
    have hdpos : 0 < d := by omega
    have hn' : 1 ≤ n / d := le_trans (by omega)
      ((Nat.le_div_iff_mul_le hdpos).2 h.2)
    have hsub : n / d ∣ n := ⟨d, (Nat.div_mul_cancel hdvd).symm⟩
    have hmin' : ∀ p : ℕ, p.Prime → p ∣ n / d → d ≤ p :=
      fun p hp hpd => hmin p hp (hpd.trans hsub)
    obtain ⟨hprod, hprime, hsort, hge⟩ := ih hd hn' hmin'
    refine ⟨?_, ?_, ?_, ?_⟩
    · rw [List.prod_cons, hprod, Nat.mul_div_cancel' hdvd]
    · intro p hp
      rcases List.mem_cons.1 hp with rfl | hp'
      · exact hdprime
      · exact hprime p hp'
    · exact List.sorted_cons.2 ⟨fun b hb => hge b hb, hsort⟩
    · intro x hx
      rcases List.mem_cons.1 hx with rfl | hx'
      · exact le_refl x
      · exact hge x hx'
  | case2 n d h hmod ih =>
    intro hd hn hmin
    rw [prime_factors_loop, dif_pos h, if_neg hmod]
    have hmin' : ∀ p : ℕ, p.Prime → p ∣ n → d + 1 ≤ p := by
      intro p hp hpn
      have h1 := hmin p hp hpn
      rcases eq_or_lt_of_le h1 with rfl | h2
      · exact absurd (Nat.mod_eq_zero_of_dvd hpn) hmod
      · omega
    obtain ⟨hprod, hprime, hsort, hge⟩ := ih (by omega) hn hmin'
    exact ⟨hprod, hprime, hsort, fun x hx => le_trans (by omega) (hge x hx)⟩
  | case3 n d h hn1 =>
    intro hd hn hmin
    rw [prime_factors_loop, dif_neg h, if_pos hn1]
    have hnp : Nat.Prime n := by
      by_contra hnp
      have hq := Nat.minFac_prime (show n ≠ 1 by omega)
      have hdle := hmin _ hq (Nat.minFac_dvd n)
      have hsq := Nat.minFac_sq_le_self (show 0 < n by omega) hnp
      refine h ⟨hd, ?_⟩
      calc d * d ≤ n.minFac * n.minFac := Nat.mul_le_mul hdle hdle
        _ = n.minFac ^ 2 := (pow_two _).symm
        _ ≤ n := hsq
    refine ⟨by simp, ?_, List.sorted_singleton n, ?_⟩
    · intro p hp
      rw [List.mem_singleton] at hp
      rwa [hp]
    · intro x hx
      rw [List.mem_singleton] at hx
      subst hx
      exact hmin x hnp dvd_rfl
  | case4 n d h hn1 =>
    intro hd hn hmin
    rw [prime_factors_loop, dif_neg h, if_neg hn1]
    have hone : n = 1 := by omega
    exact ⟨by simp [hone], by simp, List.sorted_nil, by simp⟩

/-- Claim C5: for every n ≥ 1, `prime_factors(n)` succeeds and returns the
multiset of prime factors of n with multiplicity: its product is n, every
element is prime, and it is listed in non-decreasing order (empty exactly
when n = 1). -/
theorem prime_factors_spec (n : ℕ) (hn : 1 ≤ n) :
    ∃ l, prime_factors n = some l ∧ l.prod = n ∧ (∀ p ∈ l, Nat.Prime p) ∧
      List.Sorted (· ≤ ·) l ∧ (n = 1 → l = []) := by
  rcases eq_or_lt_of_le hn with h1 | h2
  · refine ⟨[], ?_, by simp [← h1], by simp, List.sorted_nil, fun _ => rfl⟩
    rw [prime_factors, if_neg (by omega), if_pos h1.symm]
  · have hmin : ∀ p : ℕ, p.Prime → p ∣ n → 2 ≤ p := fun p hp _ => hp.two_le
    obtain ⟨hprod, hprime, hsort, _⟩ :=
      prime_factors_loop_spec n 2 (le_refl 2) hn hmin
    refine ⟨prime_factors_loop n 2, ?_, hprod, hprime, hsort, fun hc => by omega⟩
    rw [prime_factors, if_neg (by omega), if_neg (by omega)]

/-- Witness for C5 at n = 12. -/
theorem prime_factors_spec_witness :
    1 ≤ 12 ∧
    ∃ l, prime_factors 12 = some l ∧ l.prod = 12 ∧ (∀ p ∈ l, Nat.Prime p) ∧
      List.Sorted (· ≤ ·) l ∧ (12 = 1 → l = []) :=
  ⟨by norm_num, prime_factors_spec 12 (by norm_num)⟩

/-- Python `sorted` on a list of numbers (modelled as rationals). -/
def sortData (data : List ℚ) : List ℚ :=
  List.insertionSort (· ≤ ·) data

/-- `median(data)` from `statistics.py`.  `none` models the `ValueError`
raised on an empty dataset; otherwise sort, and return the middle element
(odd length) or the average of the two middle elements (even length). -/
def median (data : List ℚ) : Option ℚ :=
  if data = [] then none
  else
    let s := sortData data
    let n := s.length
    if n % 2 = 0 then some ((s.getD (n / 2 - 1) 0 + s.getD (n / 2) 0) / 2)
    else some (s.getD (n / 2) 0)

/-- `quartiles(data)` from `statistics.py`.  `none` models the `ValueError`
raised on an empty dataset or fewer than 3 points.  Q2 is the median of the
sorted data; Q1 the median of `sorted_values[: n // 2]` (the two branches
of the source's `if` are identical); Q3 the median of
`sorted_values[n // 2 :]` for even n and `sorted_values[n // 2 + 1 :]` for
odd n.  A `none` from an inner `median` call propagates (modelling an
uncaught exception), which never happens for n ≥ 3. -/
def quartiles (data : List ℚ) : Option (ℚ × ℚ × ℚ) :=
  if data = [] then none
  else if data.length < 3 then none
  else
    let s := sortData data
    let n := s.length
    (median s).bind fun q2 =>
    (median (if n % 2 = 0 then s.take (n / 2) else s.take (n / 2))).bind fun q1 =>
    (median (if n % 2 = 0 then s.drop (n / 2) else s.drop (n / 2 + 1))).bind fun q3 =>
    some (q1, q2, q3)

/-- `percentile(data, p)` from `statistics.py`.  `none` models the
`ValueError` raised for p outside [0, 100] or an empty dataset.  Otherwise
p = 0 and p = 100 return the first and last sorted element; else the
fractional rank `index = (p / 100) * (n - 1)` selects the element at an
integral index, or interpolates between the floor- and ceil-indexed
elements (`index` is nonnegative here, so Python's `int` truncation equals
the floor). -/
def percentile (data : List ℚ) (p : ℚ) : Option ℚ :=
  if ¬(0 ≤ p ∧ p ≤ 100) then none
  else if data = [] then none
  else
    let s := sortData data
    let n := s.length
    if p = 0 then some (s.getD 0 0)
    else if p = 100 then some (s.getD (n - 1) 0)
    else
      let index : ℚ := p / 100 * ((n : ℚ) - 1)
      if index = (⌊index⌋ : ℚ) then some (s.getD (⌊index⌋).toNat 0)
      else
        let lower := (⌊index⌋).toNat
        let upper := (⌈index⌉).toNat
        let weight := index - (lower : ℚ)
        some (s.getD lower 0 + weight * (s.getD upper 0 - s.getD lower 0))

/-- `detect_outliers_iqr(data, multiplier)` from `statistics.py`: an empty
input short-circuits to `[]`; otherwise the quartiles are computed (whose
`ValueError` for fewer than 3 points propagates, modelled by `bind`) and
the values outside `[Q1 - multiplier*IQR, Q3 + multiplier*IQR]` are kept. -/
def detect_outliers_iqr (data : List ℚ) (multiplier : ℚ) : Option (List ℚ) :=
  if data = [] then some []
  else
    (quartiles data).bind fun q =>
      let iqr := q.2.2 - q.1
      let lower_bound := q.1 - multiplier * iqr
      let upper_bound := q.2.2 + multiplier * iqr
      some (data.filter fun x => decide (x < lower_bound) || decide (upper_bound < x))

/-- `sortData` sorts. -/
theorem sortData_sorted (l : List ℚ) : (sortData l).Sorted (· ≤ ·) :=
  List.sorted_insertionSort _ l

/-- `sortData` permutes its input. -/
theorem sortData_perm (l : List ℚ) : (sortData l).Perm l :=
  List.perm_insertionSort _ l

/-- Sorting preserves length. -/
theorem sortData_length (l : List ℚ) : (sortData l).length = l.length :=
  (sortData_perm l).length_eq

/-- Sorting a sorted list is the identity. -/
theorem sortData_of_sorted {l : List ℚ} (h : l.Sorted (· ≤ ·)) : sortData l = l :=
  List.Sorted.insertionSort_eq h

/-- On a sorted list, `getD` (with any default) is monotone below the
length. -/
theorem sorted_getD_le (s : List ℚ) (hs : s.Sorted (· ≤ ·)) {i j : ℕ}
    (hij : i ≤ j) (hj : j < s.length) : s.getD i 0 ≤ s.getD j 0 := by
  have hi : i < s.length := lt_of_le_of_lt hij hj
  rw [List.getD_eq_getElem _ _ hi, List.getD_eq_getElem _ _ hj]
  exact hs.rel_get_of_le (show (⟨i, hi⟩ : Fin s.length) ≤ ⟨j, hj⟩ from hij)

/-- `median` succeeds on any nonempty dataset. -/
theorem median_eq_some (s : List ℚ) (hne : s ≠ []) : ∃ m, median s = some m := by
  rw [median, if_neg hne]
  dsimp only
  split
  · exact ⟨_, rfl⟩
  · exact ⟨_, rfl⟩

/-- `median` of a sorted list of odd length is its middle element. -/
theorem median_sorted_odd (s : List ℚ) (hs : s.Sorted (· ≤ ·)) (hne : s ≠ [])
    (hodd : s.length % 2 = 1) : median s = some (s.getD (s.length / 2) 0) := by
  rw [median, if_neg hne]
  dsimp only
  rw [sortData_of_sorted hs]
  rw [if_neg (by omega)]

/-- `median` of a sorted list of even (nonzero) length is the average of
its two middle elements. -/
theorem median_sorted_even (s : List ℚ) (hs : s.Sorted (· ≤ ·)) (hne : s ≠ [])
    (heven : s.length % 2 = 0) :
    median s = some ((s.getD (s.length / 2 - 1) 0 + s.getD (s.length / 2) 0) / 2) := by
  rw [median, if_neg hne]
  dsimp only
  rw [sortData_of_sorted hs]
  rw [if_pos (by omega)]

/-- The median of a sorted nonempty list is at least its first element. -/
theorem median_sorted_ge_head (s : List ℚ) (hs : s.Sorted (· ≤ ·)) (hne : s ≠ [])
    {m : ℚ} (hm : median s = some m) : s.getD 0 0 ≤ m := by
  have hlen : 0 < s.length := List.length_pos.2 hne
  rcases Nat.even_or_odd s.length with he | ho
  · have he' : s.length % 2 = 0 := Nat.even_iff.1 he
    rw [median_sorted_even s hs hne he'] at hm
    have h1 : s.getD 0 0 ≤ s.getD (s.length / 2 - 1) 0 :=
      sorted_getD_le s hs (by omega) (by omega)
    have h2 : s.getD 0 0 ≤ s.getD (s.length / 2) 0 :=
      sorted_getD_le s hs (by omega) (by omega)
    have hm' : m = (s.getD (s.length / 2 - 1) 0 + s.getD (s.length / 2) 0) / 2 :=
      (Option.some_injective _ hm.symm)
    rw [hm']
    linarith
  · have ho' : s.length % 2 = 1 := Nat.odd_iff.1 ho
    rw [median_sorted_odd s hs hne ho'] at hm
    have h1 : s.getD 0 0 ≤ s.getD (s.length / 2) 0 :=
      sorted_getD_le s hs (by omega) (by omega)
    have hm' : m = s.getD (s.length / 2) 0 := (Option.some_injective _ hm.symm)
    rw [hm']
    exact h1

/-- The median of a sorted nonempty list is at most its last element. -/
theorem median_sorted_le_last (s : List ℚ) (hs : s.Sorted (· ≤ ·)) (hne : s ≠ [])
    {m : ℚ} (hm : median s = some m) : m ≤ s.getD (s.length - 1) 0 := by
  have hlen : 0 < s.length := List.length_pos.2 hne
  rcases Nat.even_or_odd s.length with he | ho
  · have he' : s.length % 2 = 0 := Nat.even_iff.1 he
    rw [median_sorted_even s hs hne he'] at hm
    have h1 : s.getD (s.length / 2 - 1) 0 ≤ s.getD (s.length - 1) 0 :=
      sorted_getD_le s hs (by omega) (by omega)
    have h2 : s.getD (s.length / 2) 0 ≤ s.getD (s.length - 1) 0 :=
      sorted_getD_le s hs (by omega) (by omega)
    have hm' : m = (s.getD (s.length / 2 - 1) 0 + s.getD (s.length / 2) 0) / 2 :=
      (Option.some_injective _ hm.symm)
    rw [hm']
    linarith
  · have ho' : s.length % 2 = 1 := Nat.odd_iff.1 ho
    rw [median_sorted_odd s hs hne ho'] at hm
    have h1 : s.getD (s.length / 2) 0 ≤ s.getD (s.length - 1) 0 :=
      sorted_getD_le s hs (by omega) (by omega)
    have hm' : m = s.getD (s.length / 2) 0 := (Option.some_injective _ hm.symm)
    rw [hm']
    exact h1

/-- For a sorted list of length at least 3, the median sits between the
element just below the midpoint and the element at the start of the upper
half used by `quartiles`. -/
theorem median_sorted_middle (s : List ℚ) (hs : s.Sorted (· ≤ ·))
    (h3 : 3 ≤ s.length) {m : ℚ} (hm : median s = some m) :
    s.getD (s.length / 2 - 1) 0 ≤ m ∧
    m ≤ s.getD (if s.length % 2 = 0 then s.length / 2 else s.length / 2 + 1) 0 := by
  have hne : s ≠ [] := by
    intro hc
    rw [hc] at h3
    simp at h3
  rcases Nat.even_or_odd s.length with he | ho
  · have he' : s.length % 2 = 0 := Nat.even_iff.1 he
    rw [median_sorted_even s hs hne he'] at hm
    have hm' : m = (s.getD (s.length / 2 - 1) 0 + s.getD (s.length / 2) 0) / 2 :=
      (Option.some_injective _ hm.symm)
    have hle : s.getD (s.length / 2 - 1) 0 ≤ s.getD (s.length / 2) 0 :=
      sorted_getD_le s hs (by omega) (by omega)
    rw [if_pos he', hm']
    constructor <;> linarith
  · have ho' : s.length % 2 = 1 := Nat.odd_iff.1 ho
    rw [median_sorted_odd s hs hne ho'] at hm
    have hm' : m = s.getD (s.length / 2) 0 := (Option.some_injective _ hm.symm)
    have hle : s.getD (s.length / 2) 0 ≤ s.getD (s.length / 2 + 1) 0 :=
      sorted_getD_le s hs (by omega) (by omega)
    rw [if_neg (by omega), hm']
    exact ⟨sorted_getD_le s hs (by omega) (by omega), hle⟩

/-- Unfolding of `quartiles` on a dataset of at least 3 points: the three
components are medians of the sorted data, of its lower slice
`[: n // 2]`, and of its upper slice (`[n // 2 :]` for even n,
`[n // 2 + 1 :]` for odd n). -/
theorem quartiles_eq (data : List ℚ) (h3 : 3 ≤ data.length) :
    ∃ q1 q2 q3, quartiles data = some (q1, q2, q3) ∧
      median (sortData data) = some q2 ∧
      median ((sortData data).take (data.length / 2)) = some q1 ∧
      median ((sortData data).drop
        (if data.length % 2 = 0 then data.length / 2 else data.length / 2 + 1)) = some q3 := by
  have hne : data ≠ [] := by
    intro hc
    rw [hc] at h3
    simp at h3
  have hlen : (sortData data).length = data.length := sortData_length data
  have h2 : ∃ q2, median (sortData data) = some q2 :=
    median_eq_some _ (List.ne_nil_of_length_pos (by rw [hlen]; omega))
  obtain ⟨q2, hq2⟩ := h2
  have htake_len : ((sortData data).take (data.length / 2)).length = data.length / 2 := by
    rw [List.length_take, hlen]
    omega
  have h1 : ∃ q1, median ((sortData data).take (data.length / 2)) = some q1 :=
    median_eq_some _ (List.ne_nil_of_length_pos (by rw [htake_len]; omega))
  obtain ⟨q1, hq1⟩ := h1
  have hdrop_len : ((sortData data).drop
      (if data.length % 2 = 0 then data.length / 2 else data.length / 2 + 1)).length =
      data.length - (if data.length % 2 = 0 then data.length / 2 else data.length / 2 + 1) := by
    rw [List.length_drop, hlen]
  have h3' : ∃ q3, median ((sortData data).drop
      (if data.length % 2 = 0 then data.length / 2 else data.length / 2 + 1)) = some q3 :=
    median_eq_some _ (List.ne_nil_of_length_pos (by rw [hdrop_len]; split <;> omega))
  obtain ⟨q3, hq3⟩ := h3'
  refine ⟨q1, q2, q3, ?_, hq2, hq1, hq3⟩
  rw [quartiles, if_neg hne, if_neg (by omega)]
  dsimp only
  rw [hlen]
  rw [ite_self ((sortData data).take (data.length / 2))]
  rw [← apply_ite (fun k => List.drop k (sortData data))]
  rw [hq2, Option.some_bind, hq1, Option.some_bind, hq3, Option.some_bind]

/-- Claim C4: for every dataset with at least 3 values, the triple
(Q1, Q2, Q3) returned by `quartiles` satisfies Q1 ≤ Q2 ≤ Q3. -/
theorem quartiles_ordered (data : List ℚ) (h3 : 3 ≤ data.length)
    {q1 q2 q3 : ℚ} (hq : quartiles data = some (q1, q2, q3)) :
    q1 ≤ q2 ∧ q2 ≤ q3 := by
  obtain ⟨q1', q2', q3', hq', hm2, hm1, hm3⟩ := quartiles_eq data h3
  rw [hq] at hq'
  have heq : q1 = q1' ∧ q2 = q2' ∧ q3 = q3' := by
    have h := Option.some_injective _ hq'
    exact ⟨congrArg Prod.fst h, congrArg (fun t => t.2.1) h, congrArg (fun t => t.2.2) h⟩
  obtain ⟨e1, e2, e3⟩ := heq
  subst e1
  subst e2
  subst e3
  have hs : (sortData data).Sorted (· ≤ ·) := sortData_sorted data
  have hslen : (sortData data).length = data.length := sortData_length data
  rw [← hslen] at hm1 hm3 h3
  have hmid := median_sorted_middle (sortData data) hs h3 hm2
  constructor
  · -- Q1 ≤ Q2 via the last element of the lower half
    have ht_sorted : ((sortData data).take ((sortData data).length / 2)).Sorted (· ≤ ·) :=
      List.Pairwise.sublist (List.take_sublist _ _) hs
    have ht_len : ((sortData data).take ((sortData data).length / 2)).length =
        (sortData data).length / 2 := by
      rw [List.length_take]
      omega
    have ht_ne : (sortData data).take ((sortData data).length / 2) ≠ [] :=
      List.ne_nil_of_length_pos (by rw [ht_len]; omega)
    have hlast := median_sorted_le_last _ ht_sorted ht_ne hm1
    rw [ht_len] at hlast
    have hidx : (sortData data).length / 2 - 1 <
        ((sortData data).take ((sortData data).length / 2)).length := by
      rw [ht_len]
      omega
    have hgetD : ((sortData data).take ((sortData data).length / 2)).getD
        ((sortData data).length / 2 - 1) 0 =
        (sortData data).getD ((sortData data).length / 2 - 1) 0 := by
      rw [List.getD_eq_getElem _ _ hidx, List.getD_eq_getElem _ _ (by omega)]
      exact List.getElem_take _
    rw [hgetD] at hlast
    exact le_trans hlast hmid.1
  · -- Q2 ≤ Q3 via the first element of the upper half
    have hd_sorted : ((sortData data).drop
        (if (sortData data).length % 2 = 0 then (sortData data).length / 2
         else (sortData data).length / 2 + 1)).Sorted (· ≤ ·) :=
      List.Pairwise.sublist (List.drop_sublist _ _) hs
    have hk_lt : (if (sortData data).length % 2 = 0 then (sortData data).length / 2
        else (sortData data).length / 2 + 1) < (sortData data).length := by
      split <;> omega
    have hd_len : ((sortData data).drop
        (if (sortData data).length % 2 = 0 then (sortData data).length / 2
         else (sortData data).length / 2 + 1)).length =
        (sortData data).length -
        (if (sortData data).length % 2 = 0 then (sortData data).length / 2
         else (sortData data).length / 2 + 1) := List.length_drop _ _
    have hd_ne : (sortData data).drop
        (if (sortData data).length % 2 = 0 then (sortData data).length / 2
         else (sortData data).length / 2 + 1) ≠ [] :=
      List.ne_nil_of_length_pos (by rw [hd_len]; omega)
    have hhead := median_sorted_ge_head _ hd_sorted hd_ne hm3
    have hgetD : ((sortData data).drop
        (if (sortData data).length % 2 = 0 then (sortData data).length / 2
         else (sortData data).length / 2 + 1)).getD 0 0 =
        (sortData data).getD
        (if (sortData data).length % 2 = 0 then (sortData data).length / 2
         else (sortData data).length / 2 + 1) 0 := by
      rw [List.getD_eq_getElem _ _ (by rw [hd_len]; omega),
        List.getD_eq_getElem _ _ hk_lt]
      have h := List.getElem_drop (sortData data)
        (i := (if (sortData data).length % 2 = 0 then (sortData data).length / 2
          else (sortData data).length / 2 + 1)) (j := 0)
        (h := by rw [hd_len]; omega)
      rw [h]
      simp
    rw [hgetD] at hhead
    exact le_trans hmid.2 hhead

/-- Witness for C4 at [1, 2, 3]: quartiles are (1, 2, 3) and 1 ≤ 2 ≤ 3. -/
theorem quartiles_ordered_witness :
    3 ≤ ([(1:ℚ), 2, 3]).length ∧ ((1:ℚ) ≤ 2 ∧ (2:ℚ) ≤ 3) :=
  ⟨by norm_num,
    quartiles_ordered [(1:ℚ), 2, 3] (by norm_num)
      (by norm_num [quartiles, median, sortData, List.insertionSort,
            List.orderedInsert]
          simp)⟩

/-- Claim C3, evaluated at the input named by the claim: the code returns
(2.5, 5.0, 7.5) on [1, 2, 3, 4, 5, 6, 7, 8, 9] (the lower half
[1, 2, 3, 4] has median 2.5 and the upper half [6, 7, 8, 9] has median
7.5), not the (3.0, 5.0, 7.0) promised by the claim and by the function's
own docstring. -/
theorem quartiles_one_to_nine_eval :
    quartiles [1, 2, 3, 4, 5, 6, 7, 8, 9] = some (5/2, 5, 15/2) := by
  norm_num [quartiles, median, sortData, List.insertionSort, List.orderedInsert]
  simp

/-- Claim C9: a non-empty dataset with fewer than 3 values makes
`detect_outliers_iqr` fail (the `ValueError` from `quartiles` propagates),
while the empty dataset short-circuits to an empty outlier list. -/
theorem detect_outliers_iqr_short_input (data : List ℚ) (multiplier : ℚ) :
    (data ≠ [] → data.length < 3 → detect_outliers_iqr data multiplier = none) ∧
    detect_outliers_iqr ([] : List ℚ) multiplier = some [] := by
  constructor
  · intro hne hlen
    rw [detect_outliers_iqr, if_neg hne]
    have hq : quartiles data = none := by
      rw [quartiles, if_neg hne, if_pos hlen]
    rw [hq]
    rfl
  · rw [detect_outliers_iqr, if_pos rfl]

/-- Witness for C9 at [1, 2] (length 2) and at []. -/
theorem detect_outliers_iqr_short_input_witness :
    ([(1:ℚ), 2] ≠ [] ∧ ([(1:ℚ), 2]).length < 3) ∧
    detect_outliers_iqr [(1:ℚ), 2] (3/2) = none ∧
    detect_outliers_iqr ([] : List ℚ) (3/2) = some [] :=
  ⟨⟨by simp, by norm_num⟩,
    (detect_outliers_iqr_short_input [(1:ℚ), 2] (3/2)).1 (by simp) (by norm_num),
    (detect_outliers_iqr_short_input ([] : List ℚ) (3/2)).2⟩

/-- The first element of the sorted copy of a nonempty dataset is a minimum
of the dataset. -/
theorem sortData_head_min (data : List ℚ) (hne : data ≠ []) :
    (sortData data).getD 0 0 ∈ data ∧ ∀ x ∈ data, (sortData data).getD 0 0 ≤ x := by
  have hperm := sortData_perm data
  have hs := sortData_sorted data
  have hlen : 0 < (sortData data).length := by
    rw [sortData_length]
    exact List.length_pos.2 hne
  rw [List.getD_eq_getElem _ _ hlen]
  constructor
  · exact hperm.subset (List.getElem_mem hlen)
  · intro x hx
    have hx' : x ∈ sortData data := hperm.mem_iff.2 hx
    obtain ⟨i, hi⟩ := List.get_of_mem hx'
    rw [← hi]
    exact hs.rel_get_of_le (show (⟨0, hlen⟩ : Fin _) ≤ i from Nat.zero_le _)

/-- The last element of the sorted copy of a nonempty dataset is a maximum
of the dataset. -/
theorem sortData_last_max (data : List ℚ) (hne : data ≠ []) :
    (sortData data).getD ((sortData data).length - 1) 0 ∈ data ∧
    ∀ x ∈ data, x ≤ (sortData data).getD ((sortData data).length - 1) 0 := by
  have hperm := sortData_perm data
  have hs := sortData_sorted data
  have hlen : 0 < (sortData data).length := by
    rw [sortData_length]
    exact List.length_pos.2 hne
  have hidx : (sortData data).length - 1 < (sortData data).length := by omega
  rw [List.getD_eq_getElem _ _ hidx]
  constructor
  · exact hperm.subset (List.getElem_mem hidx)
  · intro x hx
    have hx' : x ∈ sortData data := hperm.mem_iff.2 hx
    obtain ⟨i, hi⟩ := List.get_of_mem hx'
    rw [← hi]
    exact hs.rel_get_of_le
      (show i ≤ (⟨(sortData data).length - 1, hidx⟩ : Fin _) from
        Nat.le_pred_of_lt i.isLt)

/-- Claim C7: `percentile(data, p)` fails for p outside [0, 100] or empty
data; on non-empty data p = 0 yields a minimum of the data and p = 100 a
maximum; otherwise, over the sorted copy s of the data, it computes
`index = (p/100)*(n-1)` and returns `s[index]` when the index is integral,
else the interpolation `lower + (index - floor(index)) * (upper - lower)`
between the floor- and ceil-ranked elements. -/
theorem percentile_spec :
    (∀ (data : List ℚ) (p : ℚ), (p < 0 ∨ 100 < p) → percentile data p = none) ∧
    (∀ p : ℚ, percentile ([] : List ℚ) p = none) ∧
    (∀ data : List ℚ, data ≠ [] →
      (∃ m, percentile data 0 = some m ∧ m ∈ data ∧ ∀ x ∈ data, m ≤ x) ∧
      (∃ m, percentile data 100 = some m ∧ m ∈ data ∧ ∀ x ∈ data, x ≤ m)) ∧
    (∀ (data : List ℚ) (p : ℚ) (s : List ℚ), data ≠ [] → 0 < p → p < 100 →
      s.Perm data → s.Sorted (· ≤ ·) →
      percentile data p =
        some (if (p / 100 * ((s.length : ℚ) - 1)) = (⌊p / 100 * ((s.length : ℚ) - 1)⌋ : ℚ)
          then s.getD (⌊p / 100 * ((s.length : ℚ) - 1)⌋).toNat 0
          else s.getD (⌊p / 100 * ((s.length : ℚ) - 1)⌋).toNat 0 +
            (p / 100 * ((s.length : ℚ) - 1) - ((⌊p / 100 * ((s.length : ℚ) - 1)⌋).toNat : ℚ)) *
            (s.getD (⌈p / 100 * ((s.length : ℚ) - 1)⌉).toNat 0 -
             s.getD (⌊p / 100 * ((s.length : ℚ) - 1)⌋).toNat 0))) := by
  refine ⟨?_, ?_, ?_, ?_⟩
  · intro data p hp
    rw [percentile, if_pos]
    intro hc
    rcases hp with h | h <;> linarith [hc.1, hc.2]
  · intro p
    by_cases hc : ¬((0:ℚ) ≤ p ∧ p ≤ 100)
    · rw [percentile, if_pos hc]
    · rw [percentile, if_neg hc, if_pos rfl]
  · intro data hne
    constructor
    · refine ⟨(sortData data).getD 0 0, ?_, (sortData_head_min data hne).1,
        (sortData_head_min data hne).2⟩
      rw [percentile, if_neg (not_not_intro ⟨le_refl 0, by norm_num⟩), if_neg hne,
        if_pos rfl]
    · refine ⟨(sortData data).getD ((sortData data).length - 1) 0, ?_,
        (sortData_last_max data hne).1, (sortData_last_max data hne).2⟩
      rw [percentile, if_neg (not_not_intro ⟨by norm_num, le_refl 100⟩), if_neg hne]
      dsimp only
      rw [if_neg (by norm_num : ¬(100:ℚ) = 0), if_pos rfl]
  · intro data p s hne hp0 hp100 hperm hsorted
    have hss : sortData data = s :=
      List.eq_of_perm_of_sorted ((sortData_perm data).trans hperm.symm)
        (sortData_sorted data) hsorted
    rw [percentile, if_neg (not_not_intro ⟨hp0.le, hp100.le⟩), if_neg hne]
    dsimp only
    rw [hss, if_neg hp0.ne', if_neg hp100.ne]
    split <;> rfl

/-- Witness for C7 at [3, 1, 2]: the 0th percentile is the minimum and the
100th percentile is the maximum. -/
theorem percentile_spec_witness :
    [(3:ℚ), 1, 2] ≠ [] ∧
    ((∃ m, percentile [(3:ℚ), 1, 2] 0 = some m ∧ m ∈ [(3:ℚ), 1, 2] ∧
        ∀ x ∈ [(3:ℚ), 1, 2], m ≤ x) ∧
     (∃ m, percentile [(3:ℚ), 1, 2] 100 = some m ∧ m ∈ [(3:ℚ), 1, 2] ∧
        ∀ x ∈ [(3:ℚ), 1, 2], x ≤ m)) :=
  ⟨by simp, percentile_spec.2.2.1 [(3:ℚ), 1, 2] (by simp)⟩

/-- Membership in `pyRange` for a positive step: exactly the values from
`start` (inclusive) to `stop` (exclusive) hit by steps of `step`. -/
theorem mem_pyRange {s t k j : ℕ} (hk : 0 < k) :
    j ∈ pyRange s t k ↔ s ≤ j ∧ j < t ∧ k ∣ (j - s) := by
  rw [pyRange, List.mem_range']
  constructor
  · rintro ⟨i, hi, rfl⟩
    have h1 : i + 1 ≤ (t - s + k - 1) / k := hi
    have h2 : (i + 1) * k ≤ t - s + k - 1 := (Nat.le_div_iff_mul_le hk).1 h1
    have h3 : k * i + k ≤ t - s + k - 1 := by
      rw [add_mul, one_mul, mul_comm i k] at h2
      exact h2
    refine ⟨by omega, by omega, ?_⟩
    have h4 : s + k * i - s = k * i := by omega
    rw [h4]
    exact dvd_mul_right k i
  · rintro ⟨hsj, hjt, c, hc⟩
    refine ⟨c, ?_, by omega⟩
    have h2 : (c + 1) * k ≤ t - s + k - 1 := by
      rw [add_mul, one_mul, mul_comm c k]
      omega
    exact lt_of_lt_of_le (Nat.lt_succ_self c)
      ((Nat.le_div_iff_mul_le hk).2 h2)

/-- The inner sieve range of `generate_primes` holds exactly the multiples
of `i` between `i * i` and `limit`. -/
theorem mem_sieveRange {limit i j : ℕ} (hi : 2 ≤ i) :
    j ∈ pyRange (i * i) (limit + 1) i ↔ i * i ≤ j ∧ j ≤ limit ∧ i ∣ j := by
  rw [mem_pyRange (by omega)]
  constructor
  · rintro ⟨h1, h2, h3⟩
    refine ⟨h1, by omega, ?_⟩
    have h4 : j = (j - i * i) + i * i := by omega
    rw [h4]
    exact Nat.dvd_add h3 (Dvd.intro i rfl)
  · rintro ⟨h1, h2, h3⟩
    exact ⟨h1, by omega, Nat.dvd_sub' h3 (Dvd.intro i rfl)⟩

/-- A left fold of pointwise updates to `false` clears exactly the listed
indices. -/
theorem foldl_update_false (L : List ℕ) (s : ℕ → Bool) (j : ℕ) :
    (L.foldl (fun t j' => Function.update t j' false) s) j =
      if j ∈ L then false else s j := by
  induction L generalizing s with
  | nil => simp
  | cons a L ih =>
    rw [List.foldl_cons, ih]
    by_cases hj : j ∈ L
    · rw [if_pos hj, if_pos (List.mem_cons_of_mem a hj)]
    · rw [if_neg hj]
      by_cases hja : j = a
      · subst hja
        rw [if_pos (List.mem_cons_self j L)]
        simp [Function.update]
      · rw [if_neg (by simp [hja, hj])]
        simp [Function.update, hja]

/-- Evaluation of one inner-loop pass of the sieve. -/
theorem sieveMark_eval (limit : ℕ) (s : ℕ → Bool) {i : ℕ} (hi : 2 ≤ i) (j : ℕ) :
    sieveMark limit s i j =
      if i * i ≤ j ∧ j ≤ limit ∧ i ∣ j then false else s j := by
  rw [sieveMark, foldl_update_false]
  simp only [mem_sieveRange hi]

/-- Invariant of the sieve's outer loop: after processing the prefix
`range(2, 2 + c)`, a cell `j` is still set iff `j ≥ 2` and no `d` with
`2 ≤ d < 2 + c`, `d² ≤ j ≤ limit` divides `j`. -/
theorem sieveAux_eval (limit : ℕ) :
    ∀ c j : ℕ,
      ((List.range' 2 c 1).foldl (sieveStep limit) sieveInit) j = true ↔
      (2 ≤ j ∧ ¬∃ d, 2 ≤ d ∧ d < 2 + c ∧ d * d ≤ j ∧ j ≤ limit ∧ d ∣ j) := by
  intro c
  induction c with
  | zero =>
    intro j
    show sieveInit j = true ↔ _
    constructor
    · intro h
      refine ⟨by simpa [sieveInit] using h, ?_⟩
      rintro ⟨d, hd2, hd, -⟩
      omega
    · rintro ⟨h2, -⟩
      simpa [sieveInit]
  | succ c ih =>
    intro j
    rw [List.range'_concat, List.foldl_append, List.foldl_cons, List.foldl_nil,
      one_mul]
    rw [sieveStep]
    by_cases hsi :
        ((List.range' 2 c 1).foldl (sieveStep limit) sieveInit) (2 + c) = true
    · rw [if_pos hsi]
      rw [sieveMark_eval limit _ (by omega : 2 ≤ 2 + c) j]
      by_cases hc : (2 + c) * (2 + c) ≤ j ∧ j ≤ limit ∧ (2 + c) ∣ j
      · rw [if_pos hc]
        have hr : ¬(2 ≤ j ∧
            ¬∃ d, 2 ≤ d ∧ d < 2 + (c + 1) ∧ d * d ≤ j ∧ j ≤ limit ∧ d ∣ j) :=
          fun hh => hh.2 ⟨2 + c, by omega, by omega, hc.1, hc.2.1, hc.2.2⟩
        constructor
        · intro hh
          exact absurd hh (by simp)
        · intro hh
          exact (hr hh).elim
      · rw [if_neg hc, ih j]
        constructor
        · rintro ⟨h2j, hno⟩
          refine ⟨h2j, ?_⟩
          rintro ⟨d, hd2, hdlt, hdd, hjl, hdj⟩
          by_cases hdi : d = 2 + c
          · subst hdi
            exact hc ⟨hdd, hjl, hdj⟩
          · exact hno ⟨d, hd2, by omega, hdd, hjl, hdj⟩
        · rintro ⟨h2j, hno⟩
          exact ⟨h2j, fun ⟨d, hd2, hdlt, hdd, hjl, hdj⟩ =>
            hno ⟨d, hd2, by omega, hdd, hjl, hdj⟩⟩
    · rw [if_neg hsi]
      have hex : ∃ d0, 2 ≤ d0 ∧ d0 < 2 + c ∧ d0 * d0 ≤ 2 + c ∧
          2 + c ≤ limit ∧ d0 ∣ (2 + c) := by
        by_contra hno
        exact hsi ((ih (2 + c)).2 ⟨by omega, hno⟩)
      obtain ⟨d0, hd02, hd0lt, hd0sq, hd0lim, hd0dvd⟩ := hex
      rw [ih j]
      constructor
      · rintro ⟨h2j, hno⟩
        refine ⟨h2j, ?_⟩
        rintro ⟨d, hd2, hdlt, hdd, hjl, hdj⟩
        by_cases hdi : d = 2 + c
        · subst hdi
          refine hno ⟨d0, hd02, by omega, ?_, hjl, hd0dvd.trans hdj⟩
          calc d0 * d0 ≤ 2 + c := hd0sq
            _ ≤ (2 + c) * (2 + c) := Nat.le_mul_of_pos_left _ (by omega)
            _ ≤ j := hdd
        · exact hno ⟨d, hd2, by omega, hdd, hjl, hdj⟩
      · rintro ⟨h2j, hno⟩
        exact ⟨h2j, fun ⟨d, hd2, hdlt, hdd, hjl, hdj⟩ =>
          hno ⟨d, hd2, by omega, hdd, hjl, hdj⟩⟩

/-- After the full outer loop, a cell `j` with `2 ≤ j ≤ limit` is set
exactly when `j` is prime. -/
theorem sieveLoop_eval (limit j : ℕ) (hlim : 2 ≤ limit) (hj2 : 2 ≤ j)
    (hjl : j ≤ limit) : sieveLoop limit j = true ↔ Nat.Prime j := by
  have hsqrt1 : 1 ≤ Nat.sqrt limit := Nat.le_sqrt.2 (by omega)
  have hcount : (Nat.sqrt limit + 1 - 2 + 1 - 1) / 1 = Nat.sqrt limit - 1 := by
    omega
  rw [sieveLoop, pyRange, hcount, sieveAux_eval]
  constructor
  · rintro ⟨-, hno⟩
    rw [Nat.prime_def_le_sqrt]
    refine ⟨hj2, ?_⟩
    intro m hm2 hmsq hmdvd
    have hmm : m * m ≤ j := Nat.le_sqrt.1 hmsq
    have hmlt : m ≤ Nat.sqrt limit :=
      le_trans hmsq (Nat.sqrt_le_sqrt hjl)
    exact hno ⟨m, hm2, by omega, hmm, hjl, hmdvd⟩
  · intro hp
    refine ⟨hj2, ?_⟩
    rintro ⟨d, hd2, hdlt, hdd, -, hdj⟩
    rcases (Nat.Prime.eq_one_or_self_of_dvd hp d hdj) with h1 | h1
    · omega
    · subst h1
      have h2d : 2 * d ≤ d * d := Nat.mul_le_mul_right d hd2
      omega

/-- For `n ≥ 2`, `is_prime(n)` returns exactly the primality of n: the
trial division by odd numbers up to `int(sqrt(n))` is a correct primality
test. -/
theorem is_prime_eval (n : ℕ) (h2 : 2 ≤ n) :
    is_prime n = some (decide (Nat.Prime n)) := by
  rw [is_prime, if_neg (by omega)]
  by_cases hn2 : n = 2
  · subst hn2
    simp [Nat.prime_two]
  · rw [if_neg hn2]
    by_cases heven : n % 2 = 0
    · rw [if_pos heven]
      have hnp : ¬Nat.Prime n := by
        intro hp
        have hdvd : 2 ∣ n := Nat.dvd_of_mod_eq_zero heven
        rcases hp.eq_one_or_self_of_dvd 2 hdvd with h | h
        · omega
        · exact hn2 h.symm
      simp [hnp]
    · rw [if_neg heven]
      have hodd : n % 2 = 1 := by omega
      have h3 : 3 ≤ n := by omega
      congr 1
      rw [Bool.eq_iff_iff]
      simp only [List.all_eq_true, bne_iff_ne, ne_eq, decide_eq_true_eq]
      constructor
      · intro hall
        rw [Nat.prime_def_le_sqrt]
        refine ⟨h2, ?_⟩
        intro m hm2 hmsq hmdvd
        by_cases hmeven : m % 2 = 0
        · have h2m : 2 ∣ m := Nat.dvd_of_mod_eq_zero hmeven
          have h2n : 2 ∣ n := h2m.trans hmdvd
          omega
        · have hm3 : 3 ≤ m := by omega
          have hmem : m ∈ pyRange 3 (Nat.sqrt n + 1) 2 := by
            rw [mem_pyRange (by omega)]
            exact ⟨hm3, by omega, by omega⟩
          exact hall m hmem (Nat.mod_eq_zero_of_dvd hmdvd)
      · intro hp i hi
        rw [mem_pyRange (by omega)] at hi
        intro hmod
        have hidvd : i ∣ n := Nat.dvd_of_mod_eq_zero hmod
        rcases hp.eq_one_or_self_of_dvd i hidvd with h | h
        · omega
        · subst h
          have hsn : Nat.sqrt i < i := Nat.sqrt_lt_self (by omega)
          omega

/-- Claim C2: for every limit ≥ 2, `generate_primes(limit)` returns exactly
the ascending list of x in [2, limit] accepted by `is_prime(x)`: the
sieve-based implementation agrees with the trial-division test. -/
theorem generate_primes_spec (limit : ℕ) (hlim : 2 ≤ limit) :
    generate_primes limit =
      some ((List.range' 2 (limit - 1) 1).filter
        fun x => decide (is_prime x = some true)) := by
  rw [generate_primes, if_neg (by omega)]
  have hr : pyRange 2 (limit + 1) 1 = List.range' 2 (limit - 1) 1 := by
    rw [pyRange]
    congr 1
    omega
  rw [hr]
  congr 1
  apply List.filter_congr
  intro x hx
  obtain ⟨i, hi, rfl⟩ := List.mem_range'.1 hx
  have hx2 : 2 ≤ 2 + 1 * i := by omega
  have hxl : 2 + 1 * i ≤ limit := by omega
  rw [is_prime_eval _ hx2]
  rw [Bool.eq_iff_iff, decide_eq_true_eq, Option.some_inj, decide_eq_true_eq]
  exact sieveLoop_eval limit _ hlim hx2 hxl

/-- Witness for C2 at limit = 10: the sieve output is [2, 3, 5, 7]. -/
theorem generate_primes_spec_witness :
    2 ≤ 10 ∧ generate_primes 10 =
      some ((List.range' 2 9 1).filter
        fun x => decide (is_prime x = some true)) :=
  ⟨by norm_num, generate_primes_spec 10 (by norm_num)⟩
